import Mathlib

/-!
Verification of the yata streaming core: shallow embedding of
`src/methods/highest_lowest.rs`, `src/indicators/example.rs` and
`src/indicators/pivot_reversal_strategy.rs`, plus the parts of
`crate::core` / `crate::methods` they use (`Window`, `Cross`, `Action`,
pivot signals), modelled from the specification where the Rust source is
not part of the repository snapshot.

Numeric values (`ValueType`, Rust `f64`) are embedded as rationals: the
algorithms under verification use only comparisons, `max`/`min` and exact
differences of input values. `PeriodType` is embedded as `Nat`.
-/

namespace Yata

/-- Embedding of `ValueType` (Rust `f64`) as exact rationals. -/
abbrev ValueType := ℚ

/-- Embedding of `PeriodType` as natural numbers. -/
abbrev PeriodType := ℕ

/-- Modelled from the spec: `Window<T>` (crate::core) is a fixed-capacity
ordered buffer pre-filled with a seed; `push` appends the new value and
evicts the oldest.  The buffer is held oldest-first; capacity is the
length of `buf`, invariant under `push` (for nonempty buffers). -/
structure Window (α : Type) where
  buf : List α
deriving DecidableEq

/-- Modelled from the spec: `Window::new(capacity, seed)` pre-fills all
`capacity` slots with the seed value. -/
def Window.new (capacity : ℕ) (seed : α) : Window α :=
  ⟨List.replicate capacity seed⟩

/-- Modelled from the spec: `Window::push(value)` appends `value`, evicts
and returns the oldest element.  A zero-capacity window (a programming
error per the spec) returns the value itself and stays empty. -/
def Window.push (w : Window α) (v : α) : α × Window α :=
  match w.buf with
  | [] => (v, w)
  | h :: t => (h, ⟨t ++ [v]⟩)

/-- Embedding of `Highest` (src/methods/highest_lowest.rs): current
extremum `value` plus the window of the last `length` inputs. -/
structure Highest where
  value : ValueType
  window : Window ValueType
deriving DecidableEq

/-- Embedding of `Highest::new(length, value)`. -/
def Highest.new (length : PeriodType) (value : ValueType) : Highest :=
  ⟨value, Window.new length value⟩

/-- Embedding of `Highest::next`: push the input, adopt it in O(1) when it
exceeds the current maximum, otherwise rescan the whole window (which now
contains the input) with a `max` fold seeded by the input. -/
def Highest.next (s : Highest) (value : ValueType) : ValueType × Highest :=
  let p := s.window.push value
  let v := if value > s.value then value else p.2.buf.foldl max value
  (v, ⟨v, p.2⟩)

/-- Embedding of `Lowest` (src/methods/highest_lowest.rs). -/
structure Lowest where
  value : ValueType
  window : Window ValueType
deriving DecidableEq

/-- Embedding of `Lowest::new(length, value)`. -/
def Lowest.new (length : PeriodType) (value : ValueType) : Lowest :=
  ⟨value, Window.new length value⟩

/-- Embedding of `Lowest::next`: mirror image of `Highest.next` with `<`
and a `min` fold. -/
def Lowest.next (s : Lowest) (value : ValueType) : ValueType × Lowest :=
  let p := s.window.push value
  let v := if value < s.value then value else p.2.buf.foldl min value
  (v, ⟨v, p.2⟩)

/-- Embedding of `HighestLowestDelta` (src/methods/highest_lowest.rs):
one `Highest` and one `Lowest` sharing no state. -/
structure HighestLowestDelta where
  highest : Highest
  lowest : Lowest
deriving DecidableEq

/-- Embedding of `HighestLowestDelta::new(length, value)`. -/
def HighestLowestDelta.new (length : PeriodType) (value : ValueType) : HighestLowestDelta :=
  ⟨Highest.new length value, Lowest.new length value⟩

/-- Embedding of `HighestLowestDelta::next`: difference of the two
component outputs. -/
def HighestLowestDelta.next (s : HighestLowestDelta) (value : ValueType) :
    ValueType × HighestLowestDelta :=
  let h := s.highest.next value
  let l := s.lowest.next value
  (h.1 - l.1, ⟨h.2, l.2⟩)

/-- Output trace of a `Highest` instance fed one input per step. -/
def runHighest (s : Highest) : List ValueType → List ValueType
  | [] => []
  | v :: vs => (s.next v).1 :: runHighest (s.next v).2 vs

/-- Output trace of a `Lowest` instance fed one input per step. -/
def runLowest (s : Lowest) : List ValueType → List ValueType
  | [] => []
  | v :: vs => (s.next v).1 :: runLowest (s.next v).2 vs

/-- Output trace of a `HighestLowestDelta` instance fed one input per step. -/
def runHLD (s : HighestLowestDelta) : List ValueType → List ValueType
  | [] => []
  | v :: vs => (s.next v).1 :: runHLD (s.next v).2 vs

/-- Maximum of a list, with junk value `0` on the empty list; on nonempty
lists this is the true maximum of the elements. -/
def windowMax : List ℚ → ℚ
  | [] => 0
  | h :: t => t.foldl max h

/-- Minimum of a list, with junk value `0` on the empty list. -/
def windowMin : List ℚ → ℚ
  | [] => 0
  | h :: t => t.foldl min h

/-- Specification-side value of `Highest(L)` at step `i`: the maximum of
the last `min(i+1, L)` inputs ending at step `i`. -/
def highestSpec (L : ℕ) (inputs : List ℚ) (i : ℕ) : ℚ :=
  windowMax ((inputs.take (i + 1)).drop (i + 1 - L))

/-- Specification-side value of `Lowest(L)` at step `i`. -/
def lowestSpec (L : ℕ) (inputs : List ℚ) (i : ℕ) : ℚ :=
  windowMin ((inputs.take (i + 1)).drop (i + 1 - L))

/-- Modelled from the spec: `Action` (crate::core) is a ternary signal with
magnitude — none, buy-like(strength), sell-like(strength). -/
inductive Action where
  | none
  | buy (strength : ℚ)
  | sell (strength : ℚ)
deriving DecidableEq

/-- Modelled from the spec: the numeric-to-signal thresholding rule
`Action::from(value)` — zero maps to none, positive and negative map to the
two polarities with the same magnitude.  Named `fromValue` because `from`
is a Lean keyword. -/
def Action.fromValue (v : ℚ) : Action :=
  if 0 < v then Action.buy v else if v < 0 then Action.sell (-v) else Action.none

/-- Sign of `a - b`, computed by direct comparison (so that it is exact and
kernel-evaluable): `1` when `a > b`, `-1` when `a < b`, `0` on a tie. -/
def cmpSign (a b : ℚ) : Int :=
  if b < a then 1 else if a < b then -1 else 0

/-- Modelled from the spec: the crossover detector `Cross`
(crate::methods), spec section 4.4 — the state is the sign of the previous
difference of the paired inputs; there is no previous sign on the first
step. -/
structure Cross where
  prevSign : Option Int
deriving DecidableEq

/-- Modelled from the spec: `Cross::default()` starts with no previous
sign, so the first step reports none. -/
def Cross.default : Cross := ⟨Option.none⟩

/-- Modelled from the spec: one step of the crossover detector — crossed
upward when the sign of the difference flips from non-positive to strictly
positive, crossed downward when it flips from non-negative to strictly
negative, none otherwise (ties alone are not a cross). -/
def Cross.next (s : Cross) (p : ℚ × ℚ) : Action × Cross :=
  let sgn := cmpSign p.1 p.2
  let out :=
    match s.prevSign with
    | Option.none => Action.none
    | Option.some prev =>
        if prev ≤ 0 ∧ 0 < sgn then Action.fromValue 1
        else if 0 ≤ prev ∧ sgn < 0 then Action.fromValue (-1)
        else Action.none
  (out, ⟨Option.some sgn⟩)

/-- Modelled from the spec: the `Source` enumeration (crate::core)
selecting which candle field a config reads; only variants relevant to the
Example config are modelled. -/
inductive Source where
  | Close
  | Open
  | High
  | Low
deriving DecidableEq

/-- Candle capability (`OHLC`): the four numeric accessors.  The `open`
field is named `o` because `open` is a Lean keyword. -/
structure Candle where
  o : ℚ
  high : ℚ
  low : ℚ
  close : ℚ
deriving DecidableEq

/-- Modelled from the spec: `IndicatorResult` (crate::core) — a pair of
sequences of raw values and discrete signals, as assembled by
`IndicatorResult::new`. -/
structure IndicatorResult where
  values : List ValueType
  signals : List Action
deriving DecidableEq

/-- Embedding of the `Example` indicator config
(src/indicators/example.rs): fields `price`, `period`, `source`. -/
structure Example where
  price : ValueType
  period : PeriodType
  source : Source
deriving DecidableEq

/-- Embedding of `Example::validate`: the config is valid when the price
threshold is strictly positive. -/
def Example.validate (c : Example) : Bool :=
  decide (c.price > 0)

/-- Embedding of `impl Default for Example`: price 2.0, period 3, source
Close. -/
def Example.default : Example := ⟨2, 3, Source.Close⟩

/-- Embedding of `Example::size`: one raw value and two signals. -/
def Example.size (_ : Example) : ℕ × ℕ := (1, 2)

/-- Outcome of a dynamic `set` call in the embedding.  The Rust methods
mutate in place and return `()`; the embedding returns the updated config
in `ok`, distinguishes the unknown-attribute branch (which only logs via
`dbg!` and leaves the config unchanged), and makes the panic of
`value.parse().unwrap()` on an unparsable value explicit. -/
inductive SetResult (α : Type) where
  | ok (cfg : α)
  | unknownAttribute (cfg : α)
  | panicked
deriving DecidableEq

/-- Digit-list accumulator of the numeric parsing model; fails on the
first non-digit character. -/
def parseNatCore : List Char → ℕ → Option ℕ
  | [], acc => Option.some acc
  | c :: cs, acc =>
      if c.isDigit then parseNatCore cs (acc * 10 + (c.toNat - 48)) else Option.none

/-- Modelled from the spec: `str::parse::<PeriodType>` — a nonempty
all-digit string parses to the number it denotes, anything else fails. -/
def parsePeriod (s : String) : Option ℕ :=
  match s.toList with
  | [] => Option.none
  | l => parseNatCore l 0

/-- Unsigned decimal parsing: an integer part with an optional fractional
part separated by a dot; at least one of the two parts must be nonempty. -/
def parseDecimal (l : List Char) : Option ℚ :=
  match l.splitOn '.' with
  | [ip] =>
      if ip.isEmpty then Option.none
      else (parseNatCore ip 0).map (fun n => (n : ℚ))
  | [ip, fp] =>
      if ip.isEmpty && fp.isEmpty then Option.none
      else
        match parseNatCore ip 0, parseNatCore fp 0 with
        | Option.some a, Option.some b =>
            Option.some ((a : ℚ) + (b : ℚ) / (10 : ℚ) ^ fp.length)
        | _, _ => Option.none
  | _ => Option.none

/-- Modelled from the spec: `str::parse::<ValueType>` for the decimal
forms relevant here — an optional sign followed by a decimal number.
(Exotic accepted inputs of Rust float parsing such as exponent notation or
`inf` are not modelled; no claim depends on them, and the modelled shapes
parse identically in Rust.) -/
def parseValueType (s : String) : Option ℚ :=
  match s.toList with
  | '-' :: rest => (parseDecimal rest).map (fun q => -q)
  | '+' :: rest => parseDecimal rest
  | l => parseDecimal l

/-- Embedding of `Example::set` (src/indicators/example.rs): only the
`"price"` attribute is matched and parsed with `unwrap` (a parse failure
panics).  Every other name — including the declared config fields `period`
and `source` — falls to the `dbg!` unknown-attribute branch, which leaves
the config unchanged and continues. -/
def Example.set (c : Example) (name : String) (value : String) : SetResult Example :=
  if name = "price" then
    match parseValueType value with
    | Option.some v => SetResult.ok { c with price := v }
    | Option.none => SetResult.panicked
  else SetResult.unknownAttribute c

/-- Embedding of `ExampleInstance` (src/indicators/example.rs). -/
structure ExampleInstance where
  cfg : Example
  cross : Cross
  last_signal : Action
  last_signal_position : PeriodType
deriving DecidableEq

/-- Embedding of `Example::init` (IndicatorInitializer): the seed candle
is ignored; the cross detector starts in its default state, the remembered
signal is none at position 0. -/
def Example.init (c : Example) (_candle : Candle) : ExampleInstance :=
  ⟨c, Cross.default, Action.none, 0⟩

/-- Embedding of `ExampleInstance::next` exactly as written in the source:
when the crossover output is none, the remembered signal and its position
are reset and none is returned; when the crossover output is a new
non-none signal, the code returns the remembered `last_signal` unchanged
if that is none, and only ages (and eventually expires) the remembered
signal when the remembered signal is itself non-none. -/
def ExampleInstance.next (s : ExampleInstance) (candle : Candle) :
    IndicatorResult × ExampleInstance :=
  let c := s.cross.next (candle.close, s.cfg.price)
  let new_signal := c.1
  let sigst : Action × ExampleInstance :=
    match new_signal with
    | Action.none =>
        (new_signal,
         { s with cross := c.2, last_signal := new_signal, last_signal_position := 0 })
    | _ =>
        match s.last_signal with
        | Action.none => (s.last_signal, { s with cross := c.2 })
        | _ =>
            let pos := s.last_signal_position + 1
            let ls := if s.cfg.period < pos then Action.none else s.last_signal
            (ls, { s with cross := c.2, last_signal := ls, last_signal_position := pos })
  let some_other_signal := Action.fromValue (1 / 2)
  (⟨[candle.close], [sigst.1, some_other_signal]⟩, sigst.2)

/-- Output trace of an `ExampleInstance` fed one candle per step. -/
def runExample (s : ExampleInstance) : List Candle → List IndicatorResult
  | [] => []
  | c :: cs => (s.next c).1 :: runExample (s.next c).2 cs

/-- Output trace of the crossover detector alone. -/
def runCross (s : Cross) : List (ℚ × ℚ) → List Action
  | [] => []
  | p :: ps => (s.next p).1 :: runCross (s.next p).2 ps

/-- Embedding of the `PivotReversalStrategy` config
(src/indicators/pivot_reversal_strategy.rs): fields `left`, `right`. -/
structure PivotReversalStrategy where
  left : PeriodType
  right : PeriodType
deriving DecidableEq

/-- Embedding of `PivotReversalStrategy::validate`: the source checks
nothing and returns true for every config. -/
def PivotReversalStrategy.validate (_ : PivotReversalStrategy) : Bool := true

/-- Embedding of `PivotReversalStrategy::set`: attributes `left` and
`right` are matched and parsed with `unwrap` (parse failure panics); any
other name falls to the `dbg!` unknown-attribute branch. -/
def PivotReversalStrategy.set (c : PivotReversalStrategy) (name : String) (value : String) :
    SetResult PivotReversalStrategy :=
  if name = "left" then
    match parsePeriod value with
    | Option.some v => SetResult.ok { c with left := v }
    | Option.none => SetResult.panicked
  else if name = "right" then
    match parsePeriod value with
    | Option.some v => SetResult.ok { c with right := v }
    | Option.none => SetResult.panicked
  else SetResult.unknownAttribute c

/-- Embedding of `PivotReversalStrategy::size`: one raw value and one
signal. -/
def PivotReversalStrategy.size (_ : PivotReversalStrategy) : ℕ × ℕ := (1, 1)

/-- Embedding of `impl Default for PivotReversalStrategy`: left 4,
right 2. -/
def PivotReversalStrategy.default : PivotReversalStrategy := ⟨4, 2⟩

/-- Confirmation test of the modelled pivot detector: the element at index
`i` is strictly greater than every other element of the list. -/
def isStrictMaxAt (l : List ℚ) (i : ℕ) : Bool :=
  (List.range l.length).all (fun j => j = i || decide (l.getD j 0 < l.getD i 0))

/-- Mirror confirmation test: the element at index `i` is strictly smaller
than every other element. -/
def isStrictMinAt (l : List ℚ) (i : ℕ) : Bool :=
  (List.range l.length).all (fun j => j = i || decide (l.getD i 0 < l.getD j 0))

/-- Modelled from the spec: the pivot detector, high variant
(`PivotHighSignal`, crate::methods), spec section 4.5 — it retains the last
`left + right + 1` values; the candidate is the value `right` steps in the
past; it is confirmed when it is the strict maximum among the `left`
values before it and the `right` values after it. -/
structure PivotHighSignal where
  left : PeriodType
  right : PeriodType
  window : Window ℚ
deriving DecidableEq

/-- Modelled from the spec: `PivotHighSignal::new(left, right, seed)`. -/
def PivotHighSignal.new (left right : PeriodType) (seed : ℚ) : PivotHighSignal :=
  ⟨left, right, Window.new (left + right + 1) seed⟩

/-- Modelled from the spec: one step of the pivot-high detector; the
output is the analog magnitude — positive (1) exactly when a pivot is
confirmed at the delayed position, 0 otherwise. -/
def PivotHighSignal.next (s : PivotHighSignal) (v : ℚ) : Int × PivotHighSignal :=
  let w := (s.window.push v).2
  ((if isStrictMaxAt w.buf s.left then 1 else 0), { s with window := w })

/-- Modelled from the spec: the pivot detector, low variant
(`PivotLowSignal`, crate::methods). -/
structure PivotLowSignal where
  left : PeriodType
  right : PeriodType
  window : Window ℚ
deriving DecidableEq

/-- Modelled from the spec: `PivotLowSignal::new(left, right, seed)`. -/
def PivotLowSignal.new (left right : PeriodType) (seed : ℚ) : PivotLowSignal :=
  ⟨left, right, Window.new (left + right + 1) seed⟩

/-- Modelled from the spec: one step of the pivot-low detector. -/
def PivotLowSignal.next (s : PivotLowSignal) (v : ℚ) : Int × PivotLowSignal :=
  let w := (s.window.push v).2
  ((if isStrictMinAt w.buf s.left then 1 else 0), { s with window := w })

/-- Embedding of `PivotReversalStrategyInstance`
(src/indicators/pivot_reversal_strategy.rs). -/
structure PivotReversalStrategyInstance where
  cfg : PivotReversalStrategy
  ph : PivotHighSignal
  pl : PivotLowSignal
  window : Window Candle
  hprice : ValueType
  lprice : ValueType
deriving DecidableEq

/-- Embedding of `PivotReversalStrategy::init`: the pivot detectors are
seeded with the seed candle's high and low, the candle window has capacity
`right`, both standing thresholds start at 0. -/
def PivotReversalStrategy.init (c : PivotReversalStrategy) (candle : Candle) :
    PivotReversalStrategyInstance :=
  ⟨c, PivotHighSignal.new c.left c.right candle.high,
      PivotLowSignal.new c.left c.right candle.low,
      Window.new c.right candle, 0, 0⟩

/-- Embedding of `PivotReversalStrategyInstance::next`, statement for
statement: push the candle (recovering the evicted `past_candle`), advance
both pivot detectors, update each standing threshold from `past_candle`
when the corresponding pivot confirms, compute the two exit flags, and
emit `se - le` as the single raw value with the matching Action. -/
def PivotReversalStrategyInstance.next (s : PivotReversalStrategyInstance) (candle : Candle) :
    IndicatorResult × PivotReversalStrategyInstance :=
  let pc := s.window.push candle
  let past_candle := pc.1
  let swh := s.ph.next candle.high
  let swl := s.pl.next candle.low
  let hprice := if 0 < swh.1 then past_candle.high else s.hprice
  let le : Int := if 0 < swh.1 ∨ candle.high ≤ hprice then 1 else 0
  let lprice := if 0 < swl.1 then past_candle.low else s.lprice
  let se : Int := if 0 < swl.1 ∨ lprice ≤ candle.low then 1 else 0
  let r := se - le
  (⟨[(r : ℚ)], [Action.fromValue (r : ℚ)]⟩,
   { s with ph := swh.2, pl := swl.2, window := pc.2, hprice := hprice, lprice := lprice })

/-- Output trace of a `PivotReversalStrategyInstance` fed one candle per
step. -/
def runPivot (s : PivotReversalStrategyInstance) : List Candle → List IndicatorResult
  | [] => []
  | c :: cs => (s.next c).1 :: runPivot (s.next c).2 cs

/-- Sequence of evicted (oldest) elements produced by pushing a list of
values into a window, one per push. -/
def evictedSeq (w : Window α) : List α → List α
  | [] => []
  | c :: cs => (w.push c).1 :: evictedSeq (w.push c).2 cs

/-- Sequence of `past_candle` values (the window eviction of each step)
seen by the strategy along a run. -/
def pastCandleSeq (s : PivotReversalStrategyInstance) : List Candle → List Candle
  | [] => []
  | c :: cs => (s.window.push c).1 :: pastCandleSeq (s.next c).2 cs

/-- Specification-side long-exit condition of the pivot reversal strategy
at one step: a new pivot-high is confirmed on this step, or the current
candle's high does not exceed the standing pivot-high threshold (the one
standing after this step's update). -/
def longExit (s : PivotReversalStrategyInstance) (candle : Candle) : Prop :=
  0 < (s.ph.next candle.high).1 ∨ candle.high ≤ (s.next candle).2.hprice

/-- Specification-side short-exit condition: a new pivot-low is confirmed
on this step, or the current candle's low has not fallen below the
standing pivot-low threshold. -/
def shortExit (s : PivotReversalStrategyInstance) (candle : Candle) : Prop :=
  0 < (s.pl.next candle.low).1 ∨ (s.next candle).2.lprice ≤ candle.low

instance (s : PivotReversalStrategyInstance) (c : Candle) : Decidable (longExit s c) :=
  inferInstanceAs (Decidable (0 < (s.ph.next c.high).1 ∨ c.high ≤ (s.next c).2.hprice))

instance (s : PivotReversalStrategyInstance) (c : Candle) : Decidable (shortExit s c) :=
  inferInstanceAs (Decidable (0 < (s.pl.next c.low).1 ∨ (s.next c).2.lprice ≤ c.low))


theorem foldl_max_init_le (l : List ℚ) : ∀ a : ℚ, a ≤ l.foldl max a := by
  induction l with
  | nil => intro a; simp
  | cons b t ih =>
      intro a
      calc a ≤ max a b := le_max_left a b
        _ ≤ t.foldl max (max a b) := ih (max a b)
        _ = (b :: t).foldl max a := rfl

theorem foldl_min_le_init (l : List ℚ) : ∀ a : ℚ, l.foldl min a ≤ a := by
  induction l with
  | nil => intro a; simp
  | cons b t ih =>
      intro a
      calc (b :: t).foldl min a = t.foldl min (min a b) := rfl
        _ ≤ min a b := ih (min a b)
        _ ≤ a := min_le_left a b

theorem foldl_max_mem_le (l : List ℚ) :
    ∀ a x : ℚ, x ∈ l → x ≤ l.foldl max a := by
  induction l with
  | nil => intro a x hx; cases hx
  | cons b t ih =>
      intro a x hx
      rcases List.mem_cons.mp hx with h | h
      · subst h
        calc x ≤ max a x := le_max_right a x
          _ ≤ t.foldl max (max a x) := foldl_max_init_le t _
          _ = (x :: t).foldl max a := rfl
      · exact ih (max a b) x h

theorem foldl_min_mem_ge (l : List ℚ) :
    ∀ a x : ℚ, x ∈ l → l.foldl min a ≤ x := by
  induction l with
  | nil => intro a x hx; cases hx
  | cons b t ih =>
      intro a x hx
      rcases List.mem_cons.mp hx with h | h
      · subst h
        calc (x :: t).foldl min a = t.foldl min (min a x) := rfl
          _ ≤ min a x := foldl_min_le_init t _
          _ ≤ x := min_le_right a x
      · exact ih (min a b) x h

theorem foldl_max_le_of (l : List ℚ) :
    ∀ a c : ℚ, a ≤ c → (∀ x ∈ l, x ≤ c) → l.foldl max a ≤ c := by
  induction l with
  | nil => intro a c ha _; simpa using ha
  | cons b t ih =>
      intro a c ha hl
      have hb : b ≤ c := hl b (List.mem_cons_self b t)
      exact ih (max a b) c (max_le ha hb) fun x hx => hl x (List.mem_cons_of_mem b hx)

theorem foldl_min_ge_of (l : List ℚ) :
    ∀ a c : ℚ, c ≤ a → (∀ x ∈ l, c ≤ x) → c ≤ l.foldl min a := by
  induction l with
  | nil => intro a c ha _; simpa using ha
  | cons b t ih =>
      intro a c ha hl
      have hb : c ≤ b := hl b (List.mem_cons_self b t)
      exact ih (min a b) c (le_min ha hb) fun x hx => hl x (List.mem_cons_of_mem b hx)

theorem foldl_max_pull (l : List ℚ) :
    ∀ a b : ℚ, l.foldl max (max a b) = max a (l.foldl max b) := by
  induction l with
  | nil => intro a b; simp
  | cons c t ih =>
      intro a b
      have : max (max a b) c = max a (max b c) := max_assoc a b c
      calc (c :: t).foldl max (max a b) = t.foldl max (max (max a b) c) := rfl
        _ = t.foldl max (max a (max b c)) := by rw [this]
        _ = max a (t.foldl max (max b c)) := ih a (max b c)
        _ = max a ((c :: t).foldl max b) := rfl

theorem foldl_min_pull (l : List ℚ) :
    ∀ a b : ℚ, l.foldl min (min a b) = min a (l.foldl min b) := by
  induction l with
  | nil => intro a b; simp
  | cons c t ih =>
      intro a b
      have : min (min a b) c = min a (min b c) := min_assoc a b c
      calc (c :: t).foldl min (min a b) = t.foldl min (min (min a b) c) := rfl
        _ = t.foldl min (min a (min b c)) := by rw [this]
        _ = min a (t.foldl min (min b c)) := ih a (min b c)
        _ = min a ((c :: t).foldl min b) := rfl

theorem windowMax_foldl_self (t : List ℚ) (v : ℚ) :
    (t ++ [v]).foldl max v = windowMax (t ++ [v]) := by
  cases t with
  | nil => simp [windowMax]
  | cons h t' =>
      show ((h :: t') ++ [v]).foldl max v = (t' ++ [v]).foldl max h
      rw [List.cons_append, List.foldl_cons, foldl_max_pull, List.foldl_append]
      simp only [List.foldl_cons, List.foldl_nil]
      exact max_eq_right (le_max_right _ v)

theorem windowMin_foldl_self (t : List ℚ) (v : ℚ) :
    (t ++ [v]).foldl min v = windowMin (t ++ [v]) := by
  cases t with
  | nil => simp [windowMin]
  | cons h t' =>
      show ((h :: t') ++ [v]).foldl min v = (t' ++ [v]).foldl min h
      rw [List.cons_append, List.foldl_cons, foldl_min_pull, List.foldl_append]
      simp only [List.foldl_cons, List.foldl_nil]
      exact min_eq_right (min_le_right _ v)

theorem windowMax_of_upper (t : List ℚ) (v : ℚ) (hub : ∀ x ∈ t, x ≤ v) :
    windowMax (t ++ [v]) = v := by
  cases t with
  | nil => simp [windowMax]
  | cons h t' =>
      show (t' ++ [v]).foldl max h = v
      rw [List.foldl_append]
      simp only [List.foldl_cons, List.foldl_nil]
      refine max_eq_right (foldl_max_le_of t' h v ?_ ?_)
      · exact hub h (List.mem_cons_self h t')
      · exact fun x hx => hub x (List.mem_cons_of_mem h hx)

theorem windowMin_of_lower (t : List ℚ) (v : ℚ) (hlb : ∀ x ∈ t, v ≤ x) :
    windowMin (t ++ [v]) = v := by
  cases t with
  | nil => simp [windowMin]
  | cons h t' =>
      show (t' ++ [v]).foldl min h = v
      rw [List.foldl_append]
      simp only [List.foldl_cons, List.foldl_nil]
      refine min_eq_right (foldl_min_ge_of t' h v ?_ ?_)
      · exact hlb h (List.mem_cons_self h t')
      · exact fun x hx => hlb x (List.mem_cons_of_mem h hx)

theorem highest_next_spec (s : Highest) (v : ℚ)
    (hne : s.window.buf ≠ []) (hval : s.value = windowMax s.window.buf) :
    s.next v = (windowMax (s.window.buf.tail ++ [v]),
      ⟨windowMax (s.window.buf.tail ++ [v]), ⟨s.window.buf.tail ++ [v]⟩⟩) := by
  obtain ⟨h, t, hbuf⟩ : ∃ h t, s.window.buf = h :: t := by
    cases hb : s.window.buf with
    | nil => exact absurd hb hne
    | cons h t => exact ⟨h, t, rfl⟩
  have hpush : s.window.push v = (h, ⟨t ++ [v]⟩) := by
    unfold Window.push; rw [hbuf]
  by_cases hgt : v > s.value
  · have hub : ∀ x ∈ t, x ≤ v := by
      intro x hx
      have h1 : x ≤ windowMax s.window.buf := by
        rw [hbuf]
        exact foldl_max_mem_le t h x hx
      exact le_of_lt (lt_of_le_of_lt (hval ▸ h1) hgt)
    have hmax : windowMax (t ++ [v]) = v := windowMax_of_upper t v hub
    simp only [Highest.next, hpush, hbuf, if_pos hgt, List.tail_cons, hmax]
  · have hmax : (t ++ [v]).foldl max v = windowMax (t ++ [v]) :=
      windowMax_foldl_self t v
    simp only [Highest.next, hpush, hbuf, if_neg hgt, List.tail_cons, hmax]

theorem lowest_next_spec (s : Lowest) (v : ℚ)
    (hne : s.window.buf ≠ []) (hval : s.value = windowMin s.window.buf) :
    s.next v = (windowMin (s.window.buf.tail ++ [v]),
      ⟨windowMin (s.window.buf.tail ++ [v]), ⟨s.window.buf.tail ++ [v]⟩⟩) := by
  obtain ⟨h, t, hbuf⟩ : ∃ h t, s.window.buf = h :: t := by
    cases hb : s.window.buf with
    | nil => exact absurd hb hne
    | cons h t => exact ⟨h, t, rfl⟩
  have hpush : s.window.push v = (h, ⟨t ++ [v]⟩) := by
    unfold Window.push; rw [hbuf]
  by_cases hlt : v < s.value
  · have hlb : ∀ x ∈ t, v ≤ x := by
      intro x hx
      have h1 : windowMin s.window.buf ≤ x := by
        rw [hbuf]
        exact foldl_min_mem_ge t h x hx
      exact le_of_lt (lt_of_lt_of_le hlt (hval ▸ h1))
    have hmin : windowMin (t ++ [v]) = v := windowMin_of_lower t v hlb
    simp only [Lowest.next, hpush, hbuf, if_pos hlt, List.tail_cons, hmin]
  · have hmin : (t ++ [v]).foldl min v = windowMin (t ++ [v]) :=
      windowMin_foldl_self t v
    simp only [Lowest.next, hpush, hbuf, if_neg hlt, List.tail_cons, hmin]

theorem runHighest_windows : ∀ (inputs : List ℚ) (s : Highest),
    s.window.buf ≠ [] → s.value = windowMax s.window.buf →
    runHighest s inputs = (List.range inputs.length).map
      (fun k => windowMax ((s.window.buf ++ inputs.take (k + 1)).drop (k + 1))) := by
  intro inputs
  induction inputs with
  | nil => intro s _ _; rfl
  | cons v vs ih =>
      intro s hne hval
      obtain ⟨h, t, hbuf⟩ : ∃ h t, s.window.buf = h :: t := by
        cases hb : s.window.buf with
        | nil => exact absurd hb hne
        | cons h t => exact ⟨h, t, rfl⟩
      have hstep := highest_next_spec s v hne hval
      have h1 : (s.next v).1 = windowMax (s.window.buf.tail ++ [v]) := by rw [hstep]
      have h2 : (s.next v).2 =
          ⟨windowMax (s.window.buf.tail ++ [v]), ⟨s.window.buf.tail ++ [v]⟩⟩ := by rw [hstep]
      show (s.next v).1 :: runHighest (s.next v).2 vs = _
      rw [h1, h2,
        ih ⟨windowMax (s.window.buf.tail ++ [v]), ⟨s.window.buf.tail ++ [v]⟩⟩ (by simp) rfl]
      rw [List.length_cons, List.range_succ_eq_map, List.map_cons, List.map_map]
      rw [hbuf, List.tail_cons]
      congr 1
      simp [Function.comp, List.append_assoc]

theorem runLowest_windows : ∀ (inputs : List ℚ) (s : Lowest),
    s.window.buf ≠ [] → s.value = windowMin s.window.buf →
    runLowest s inputs = (List.range inputs.length).map
      (fun k => windowMin ((s.window.buf ++ inputs.take (k + 1)).drop (k + 1))) := by
  intro inputs
  induction inputs with
  | nil => intro s _ _; rfl
  | cons v vs ih =>
      intro s hne hval
      obtain ⟨h, t, hbuf⟩ : ∃ h t, s.window.buf = h :: t := by
        cases hb : s.window.buf with
        | nil => exact absurd hb hne
        | cons h t => exact ⟨h, t, rfl⟩
      have hstep := lowest_next_spec s v hne hval
      have h1 : (s.next v).1 = windowMin (s.window.buf.tail ++ [v]) := by rw [hstep]
      have h2 : (s.next v).2 =
          ⟨windowMin (s.window.buf.tail ++ [v]), ⟨s.window.buf.tail ++ [v]⟩⟩ := by rw [hstep]
      show (s.next v).1 :: runLowest (s.next v).2 vs = _
      rw [h1, h2,
        ih ⟨windowMin (s.window.buf.tail ++ [v]), ⟨s.window.buf.tail ++ [v]⟩⟩ (by simp) rfl]
      rw [List.length_cons, List.range_succ_eq_map, List.map_cons, List.map_map]
      rw [hbuf, List.tail_cons]
      congr 1
      simp [Function.comp, List.append_assoc]

theorem foldl_max_replicate_self (m : ℕ) (x : ℚ) :
    (List.replicate m x).foldl max x = x := by
  induction m with
  | zero => rfl
  | succ m ih => simpa [List.replicate_succ, max_self] using ih

theorem foldl_min_replicate_self (m : ℕ) (x : ℚ) :
    (List.replicate m x).foldl min x = x := by
  induction m with
  | zero => rfl
  | succ m ih => simpa [List.replicate_succ, min_self] using ih

theorem windowMax_replicate (L : ℕ) (hL : 1 ≤ L) (x : ℚ) :
    windowMax (List.replicate L x) = x := by
  obtain ⟨m, rfl⟩ : ∃ m, L = m + 1 := ⟨L - 1, (Nat.succ_pred_eq_of_pos hL).symm⟩
  show windowMax (List.replicate (m + 1) x) = x
  rw [List.replicate_succ]
  exact foldl_max_replicate_self m x

theorem windowMin_replicate (L : ℕ) (hL : 1 ≤ L) (x : ℚ) :
    windowMin (List.replicate L x) = x := by
  obtain ⟨m, rfl⟩ : ∃ m, L = m + 1 := ⟨L - 1, (Nat.succ_pred_eq_of_pos hL).symm⟩
  show windowMin (List.replicate (m + 1) x) = x
  rw [List.replicate_succ]
  exact foldl_min_replicate_self m x

theorem windowMax_replicate_append (m : ℕ) (x : ℚ) (l : List ℚ) :
    windowMax (List.replicate m x ++ (x :: l)) = windowMax (x :: l) := by
  cases m with
  | zero => rfl
  | succ m =>
      show windowMax (List.replicate (m + 1) x ++ (x :: l)) = windowMax (x :: l)
      rw [List.replicate_succ, List.cons_append]
      show (List.replicate m x ++ (x :: l)).foldl max x = windowMax (x :: l)
      rw [List.foldl_append, foldl_max_replicate_self]
      show (l.foldl max (max x x)) = windowMax (x :: l)
      rw [max_self]
      rfl

theorem windowMin_replicate_append (m : ℕ) (x : ℚ) (l : List ℚ) :
    windowMin (List.replicate m x ++ (x :: l)) = windowMin (x :: l) := by
  cases m with
  | zero => rfl
  | succ m =>
      show windowMin (List.replicate (m + 1) x ++ (x :: l)) = windowMin (x :: l)
      rw [List.replicate_succ, List.cons_append]
      show (List.replicate m x ++ (x :: l)).foldl min x = windowMin (x :: l)
      rw [List.foldl_append, foldl_min_replicate_self]
      show (l.foldl min (min x x)) = windowMin (x :: l)
      rw [min_self]
      rfl

theorem seeded_window_max (L : ℕ) (x : ℚ) (xs : List ℚ) (k : ℕ) :
    windowMax ((List.replicate L x ++ (x :: xs).take (k + 1)).drop (k + 1)) =
      highestSpec L (x :: xs) k := by
  rcases le_or_lt L (k + 1) with hcase | hcase
  · have hz : L - (k + 1) = 0 := by omega
    rw [highestSpec, List.drop_append_eq_append_drop, List.drop_replicate,
      List.length_replicate, hz, List.replicate_zero, List.nil_append]
  · have h1 : (List.replicate L x ++ (x :: xs).take (k + 1)).drop (k + 1) =
        List.replicate (L - (k + 1)) x ++ (x :: xs).take (k + 1) := by
      rw [List.drop_append_of_le_length (by simpa using le_of_lt hcase)]
      rw [List.drop_replicate]
    have h2 : k + 1 - L = 0 := by omega
    rw [highestSpec, h2, List.drop_zero, h1, List.take_succ_cons]
    exact windowMax_replicate_append (L - (k + 1)) x (xs.take k)

theorem seeded_window_min (L : ℕ) (x : ℚ) (xs : List ℚ) (k : ℕ) :
    windowMin ((List.replicate L x ++ (x :: xs).take (k + 1)).drop (k + 1)) =
      lowestSpec L (x :: xs) k := by
  rcases le_or_lt L (k + 1) with hcase | hcase
  · have hz : L - (k + 1) = 0 := by omega
    rw [lowestSpec, List.drop_append_eq_append_drop, List.drop_replicate,
      List.length_replicate, hz, List.replicate_zero, List.nil_append]
  · have h1 : (List.replicate L x ++ (x :: xs).take (k + 1)).drop (k + 1) =
        List.replicate (L - (k + 1)) x ++ (x :: xs).take (k + 1) := by
      rw [List.drop_append_of_le_length (by simpa using le_of_lt hcase)]
      rw [List.drop_replicate]
    have h2 : k + 1 - L = 0 := by omega
    rw [lowestSpec, h2, List.drop_zero, h1, List.take_succ_cons]
    exact windowMin_replicate_append (L - (k + 1)) x (xs.take k)

/-- C2: for every window length `L ≥ 1` and every input sequence fed with the
documented protocol (the method is seeded with the first input, as in every
doc-test of `highest_lowest.rs`), the output of `Highest(L)` at step `i`
equals the maximum of the last `min(i+1, L)` inputs ending at step `i`, and
symmetrically the output of `Lowest(L)` equals the minimum of those inputs. -/
theorem highest_lowest_window_extremum (L : ℕ) (hL : 1 ≤ L) (x : ℚ) (xs : List ℚ) :
    runHighest (Highest.new L x) (x :: xs) =
      (List.range (x :: xs).length).map (highestSpec L (x :: xs)) ∧
    runLowest (Lowest.new L x) (x :: xs) =
      (List.range (x :: xs).length).map (lowestSpec L (x :: xs)) := by
  have hne : (Highest.new L x).window.buf ≠ [] := by
    simp only [Highest.new, Window.new]
    simp only [ne_eq, List.replicate_eq_nil_iff]
    omega
  have hne2 : (Lowest.new L x).window.buf ≠ [] := by
    simp only [Lowest.new, Window.new]
    simp only [ne_eq, List.replicate_eq_nil_iff]
    omega
  constructor
  · rw [runHighest_windows (x :: xs) (Highest.new L x) hne
      (show (Highest.new L x).value = windowMax (Highest.new L x).window.buf from
        (windowMax_replicate L hL x).symm)]
    apply List.map_congr_left
    intro k _
    exact seeded_window_max L x xs k
  · rw [runLowest_windows (x :: xs) (Lowest.new L x) hne2
      (show (Lowest.new L x).value = windowMin (Lowest.new L x).window.buf from
        (windowMin_replicate L hL x).symm)]
    apply List.map_congr_left
    intro k _
    exact seeded_window_min L x xs k

/-- Witness for C2 at `L = 3` on the inputs `[1, 2, 1]`. -/
theorem highest_lowest_window_extremum_witness :
    runHighest (Highest.new 3 1) [1, 2, 1] = [1, 2, 2] ∧
    runLowest (Lowest.new 3 1) [1, 2, 1] = [1, 1, 1] := by
  have h := highest_lowest_window_extremum 3 (by norm_num) 1 [2, 1]
  refine ⟨?_, ?_⟩
  · rw [h.1]; decide
  · rw [h.2]; decide

theorem runHLD_zip : ∀ (inputs : List ℚ) (s : HighestLowestDelta),
    runHLD s inputs = List.zipWith (fun a b => a - b)
      (runHighest s.highest inputs) (runLowest s.lowest inputs) := by
  intro inputs
  induction inputs with
  | nil => intro s; rfl
  | cons v vs ih =>
      intro s
      show (s.next v).1 :: runHLD (s.next v).2 vs = _
      rw [ih (s.next v).2]
      rfl

theorem windowMin_le_windowMax (l : List ℚ) (hne : l ≠ []) :
    windowMin l ≤ windowMax l := by
  cases l with
  | nil => exact absurd rfl hne
  | cons h t =>
      calc windowMin (h :: t) = t.foldl min h := rfl
        _ ≤ h := foldl_min_le_init t h
        _ ≤ t.foldl max h := foldl_max_init_le t h
        _ = windowMax (h :: t) := rfl

theorem runHLD_nonneg_aux : ∀ (inputs : List ℚ) (s : HighestLowestDelta),
    s.highest.window.buf ≠ [] →
    s.highest.value = windowMax s.highest.window.buf →
    s.lowest.window.buf = s.highest.window.buf →
    s.lowest.value = windowMin s.lowest.window.buf →
    ∀ o ∈ runHLD s inputs, 0 ≤ o := by
  intro inputs
  induction inputs with
  | nil => intro s _ _ _ _ o ho; cases ho
  | cons v vs ih =>
      intro s hne hmax heq hmin o ho
      have hneL : s.lowest.window.buf ≠ [] := by rw [heq]; exact hne
      have hh := highest_next_spec s.highest v hne hmax
      have hl := lowest_next_spec s.lowest v hneL hmin
      have hfst : (s.next v).1 =
          windowMax (s.highest.window.buf.tail ++ [v]) -
          windowMin (s.lowest.window.buf.tail ++ [v]) := by
        show (s.highest.next v).1 - (s.lowest.next v).1 = _
        rw [hh, hl]
      have hsnd : (s.next v).2 =
          ⟨⟨windowMax (s.highest.window.buf.tail ++ [v]), ⟨s.highest.window.buf.tail ++ [v]⟩⟩,
           ⟨windowMin (s.lowest.window.buf.tail ++ [v]), ⟨s.lowest.window.buf.tail ++ [v]⟩⟩⟩ := by
        show (⟨(s.highest.next v).2, (s.lowest.next v).2⟩ : HighestLowestDelta) = _
        rw [hh, hl]
      have hrun : runHLD s (v :: vs) = (s.next v).1 :: runHLD (s.next v).2 vs := rfl
      rw [hrun] at ho
      rcases List.mem_cons.mp ho with h1 | h1
      · subst h1
        rw [hfst, heq]
        have := windowMin_le_windowMax (s.highest.window.buf.tail ++ [v]) (by simp)
        linarith
      · refine ih (s.next v).2 ?_ ?_ ?_ ?_ o h1
        · rw [hsnd]; simp
        · rw [hsnd]
        · rw [hsnd, heq]
        · rw [hsnd]

/-- C7: for every window length `L ≥ 1`, every seed and every input sequence,
`HighestLowestDelta(L)` outputs at every step exactly the output of
`Highest(L)` minus the output of `Lowest(L)` on the same seed and inputs, and
every output is nonnegative. -/
theorem hld_eq_highest_minus_lowest (L : ℕ) (hL : 1 ≤ L) (seed : ℚ) (inputs : List ℚ) :
    runHLD (HighestLowestDelta.new L seed) inputs =
      List.zipWith (fun a b => a - b) (runHighest (Highest.new L seed) inputs)
        (runLowest (Lowest.new L seed) inputs) ∧
    ∀ o ∈ runHLD (HighestLowestDelta.new L seed) inputs, 0 ≤ o := by
  constructor
  · exact runHLD_zip inputs (HighestLowestDelta.new L seed)
  · refine runHLD_nonneg_aux inputs (HighestLowestDelta.new L seed) ?_ ?_ rfl ?_
    · simp only [HighestLowestDelta.new, Highest.new, Window.new]
      simp only [ne_eq, List.replicate_eq_nil_iff]
      omega
    · exact (windowMax_replicate L hL seed).symm
    · exact (windowMin_replicate L hL seed).symm

/-- Witness for C7 at `L = 3`, seed `1`, inputs `[1, 3, 2]`. -/
theorem hld_eq_highest_minus_lowest_witness :
    runHLD (HighestLowestDelta.new 3 1) [1, 3, 2] = [0, 2, 2] ∧
    (runHLD (HighestLowestDelta.new 3 1) [1, 3, 2] =
      List.zipWith (fun a b => a - b) (runHighest (Highest.new 3 1) [1, 3, 2])
        (runLowest (Lowest.new 3 1) [1, 3, 2]) ∧
    ∀ o ∈ runHLD (HighestLowestDelta.new 3 1) [1, 3, 2], 0 ≤ o) :=
  ⟨by norm_num [runHLD, HighestLowestDelta.next, HighestLowestDelta.new,
      Highest.next, Highest.new, Lowest.next, Lowest.new, Window.push, Window.new,
      List.replicate],
   hld_eq_highest_minus_lowest 3 (by norm_num) 1 [1, 3, 2]⟩

theorem runHLD_one_aux : ∀ (inputs : List ℚ) (s : HighestLowestDelta) (w u : ℚ),
    s.highest.window.buf = [w] → s.lowest.window.buf = [u] →
    runHLD s inputs = List.replicate inputs.length 0 := by
  intro inputs
  induction inputs with
  | nil => intro s w u _ _; rfl
  | cons v vs ih =>
      intro s w u hH hL
      have hh : s.highest.next v =
          (v, ⟨v, ⟨[v]⟩⟩) := by
        simp [Highest.next, Window.push, hH, max_self]
      have hl : s.lowest.next v =
          (v, ⟨v, ⟨[v]⟩⟩) := by
        simp [Lowest.next, Window.push, hL, min_self]
      have hfst : (s.next v).1 = 0 := by
        show (s.highest.next v).1 - (s.lowest.next v).1 = 0
        rw [hh, hl]
        norm_num
      have hsnd : (s.next v).2 = ⟨⟨v, ⟨[v]⟩⟩, ⟨v, ⟨[v]⟩⟩⟩ := by
        show (⟨(s.highest.next v).2, (s.lowest.next v).2⟩ : HighestLowestDelta) = _
        rw [hh, hl]
      show (s.next v).1 :: runHLD (s.next v).2 vs = _
      rw [hfst, hsnd, ih ⟨⟨v, ⟨[v]⟩⟩, ⟨v, ⟨[v]⟩⟩⟩ v v rfl rfl]
      rfl

/-- C8: for every seed and every input sequence, `HighestLowestDelta`
constructed with window length `1` outputs exactly `0` at every step. -/
theorem hld_length_one_always_zero (seed : ℚ) (inputs : List ℚ) :
    runHLD (HighestLowestDelta.new 1 seed) inputs = List.replicate inputs.length 0 :=
  runHLD_one_aux inputs (HighestLowestDelta.new 1 seed) seed seed rfl rfl

theorem evictedSeq_closed : ∀ (l : List α) (w : Window α),
    evictedSeq w l = (w.buf ++ l).take l.length := by
  intro l
  induction l with
  | nil => intro w; rfl
  | cons c cs ih =>
      intro w
      cases hb : w.buf with
      | nil =>
          have hpush : w.push c = (c, w) := by
            unfold Window.push; rw [hb]
          show (w.push c).1 :: evictedSeq (w.push c).2 cs = _
          rw [hpush]
          show c :: evictedSeq w cs = _
          rw [ih w, hb]
          simp
      | cons h t =>
          have hpush : w.push c = (h, ⟨t ++ [c]⟩) := by
            unfold Window.push; rw [hb]
          show (w.push c).1 :: evictedSeq (w.push c).2 cs = _
          rw [hpush]
          show h :: evictedSeq ⟨t ++ [c]⟩ cs = _
          rw [ih ⟨t ++ [c]⟩]
          simp [List.append_assoc]

theorem pastCandleSeq_eq_evictedSeq : ∀ (cs : List Candle) (s : PivotReversalStrategyInstance),
    pastCandleSeq s cs = evictedSeq s.window cs := by
  intro cs
  induction cs with
  | nil => intro s; rfl
  | cons c cs ih =>
      intro s
      show (s.window.push c).1 :: pastCandleSeq (s.next c).2 cs =
        (s.window.push c).1 :: evictedSeq (s.window.push c).2 cs
      rw [ih (s.next c).2]
      rfl

theorem pastCandleSeq_closed (cfg : PivotReversalStrategy) (seed : Candle) (cs : List Candle) :
    pastCandleSeq (cfg.init seed) cs = (List.replicate cfg.right seed ++ cs).take cs.length := by
  rw [pastCandleSeq_eq_evictedSeq, evictedSeq_closed]
  rfl

/-- C3: on every step of `PivotReversalStrategyInstance`, the long-exit
condition holds exactly when a new pivot-high confirms on that step or the
current high does not exceed the standing pivot-high price (symmetrically
for short-exit with the pivot-low); when a pivot confirms, the standing
threshold is updated to the high (resp. low) of the evicted `past_candle`,
which along a run is the candle `right` steps in the past; and the result
is the single raw value `short-exit - long-exit`, a ternary value in
`{-1, 0, 1}`, with the matching Action as the single signal. -/
theorem pivot_strategy_step_spec :
    (∀ (s : PivotReversalStrategyInstance) (candle : Candle),
      ((s.next candle).2.hprice =
        if 0 < (s.ph.next candle.high).1 then (s.window.push candle).1.high else s.hprice) ∧
      ((s.next candle).2.lprice =
        if 0 < (s.pl.next candle.low).1 then (s.window.push candle).1.low else s.lprice) ∧
      ∃ r : ℤ,
        r = (if shortExit s candle then 1 else 0) - (if longExit s candle then 1 else 0) ∧
        (r = -1 ∨ r = 0 ∨ r = 1) ∧
        (s.next candle).1 = ⟨[(r : ℚ)], [Action.fromValue (r : ℚ)]⟩) ∧
    (∀ (cfg : PivotReversalStrategy) (seed : Candle) (cs : List Candle),
      pastCandleSeq (cfg.init seed) cs =
        (List.replicate cfg.right seed ++ cs).take cs.length) ∧
    (∀ (cfg : PivotReversalStrategy) (seed : Candle) (cs : List Candle) (i : ℕ),
      cfg.right ≤ i → i < cs.length →
      (pastCandleSeq (cfg.init seed) cs)[i]? = cs[i - cfg.right]?) := by
  refine ⟨?_, pastCandleSeq_closed, ?_⟩
  · intro s candle
    refine ⟨rfl, rfl, ⟨(if shortExit s candle then 1 else 0) -
      (if longExit s candle then 1 else 0), rfl, ?_, rfl⟩⟩
    by_cases hse : shortExit s candle <;> by_cases hle : longExit s candle <;>
      simp [hse, hle]
  · intro cfg seed cs i hri hilen
    rw [pastCandleSeq_closed, List.getElem?_take_of_lt hilen,
      List.getElem?_append_right (by simpa using le_trans hri (Nat.le_refl i))]
    rw [List.length_replicate]

/-- Witness for C3: the default strategy (left 4, right 2) run on three
candles sees, at step 2, the past candle of two steps earlier (step 0). -/
theorem pivot_strategy_step_spec_witness :
    (pastCandleSeq (PivotReversalStrategy.default.init ⟨0, 0, 0, 0⟩)
      [⟨1, 10, 1, 5⟩, ⟨2, 20, 2, 6⟩, ⟨3, 30, 3, 7⟩])[2]? =
      ([⟨1, 10, 1, 5⟩, ⟨2, 20, 2, 6⟩, ⟨3, 30, 3, 7⟩] : List Candle)[0]? :=
  pivot_strategy_step_spec.2.2 PivotReversalStrategy.default ⟨0, 0, 0, 0⟩
    [⟨1, 10, 1, 5⟩, ⟨2, 20, 2, 6⟩, ⟨3, 30, 3, 7⟩] 2 (by decide) (by decide)

/-- C1 (code bug, failing input): with the default config (price 2,
period 3) and candle closes `[1, 3, 3, 3, 3, 3]`, the internal crossover
produces a non-none (buy-like) signal at step 1, yet the indicator reports
none as its first signal on every step: the source's persistence match has
its two arms swapped, so `last_signal` is only ever assigned none and the
crossover signal is never reported, persisted for `period` steps, or
decayed as the claim requires. -/
theorem example_signal_never_persists :
    runCross Cross.default
        [((1 : ℚ), 2), (3, 2), (3, 2), (3, 2), (3, 2), (3, 2)] =
      [Action.none, Action.fromValue 1, Action.none, Action.none,
        Action.none, Action.none] ∧
    (runExample (Example.default.init ⟨1, 1, 1, 1⟩)
        [⟨1, 1, 1, 1⟩, ⟨3, 3, 3, 3⟩, ⟨3, 3, 3, 3⟩, ⟨3, 3, 3, 3⟩,
          ⟨3, 3, 3, 3⟩, ⟨3, 3, 3, 3⟩]).map (fun r => r.signals.head?) =
      List.replicate 6 (Option.some Action.none) := by
  exact ⟨by decide, by decide⟩

/-- C4 (code bug, failing input): setting the declared `price` field of
`Example`, or `left` of `PivotReversalStrategy`, to a string that does not
parse runs into `value.parse().unwrap()` in the source — a process-aborting
panic, not a reported recoverable error. -/
theorem set_unparsable_value_panics :
    Example.set Example.default ("price") ("abc") = SetResult.panicked ∧
    PivotReversalStrategy.set PivotReversalStrategy.default ("left") ("abc") =
      SetResult.panicked := by
  exact ⟨by decide, by decide⟩

/-- C5 (code bug, failing input): `Example::set` matches only `"price"`;
the declared config fields `period` and `source` fall into the
unknown-attribute branch and are never updated, while the
PivotReversalStrategy fields are updated as declared. -/
theorem example_set_period_source_ignored :
    Example.set Example.default ("period") ("5") =
      SetResult.unknownAttribute Example.default ∧
    Example.set Example.default ("source") ("high") =
      SetResult.unknownAttribute Example.default ∧
    PivotReversalStrategy.set PivotReversalStrategy.default ("left") ("5") =
      SetResult.ok ⟨5, 2⟩ := by
  exact ⟨by decide, by decide, by decide⟩

/-- C6 (counterexample): `PivotReversalStrategy::validate` returns true
even for the config `left = 0, right = 0`, which the claim says it must
reject. -/
theorem pivot_validate_counterexample :
    PivotReversalStrategy.validate ⟨0, 0⟩ = true := rfl

/-- C6 (amended): `Example::validate` returns false for every config whose
price threshold is non-positive, while `PivotReversalStrategy::validate`
performs no check at all and returns true for every config, including
those with `left = 0` or `right = 0`. -/
theorem validate_checks_amended :
    (∀ c : Example, c.price ≤ 0 → c.validate = false) ∧
    (∀ c : PivotReversalStrategy, c.validate = true) := by
  constructor
  · intro c hc
    simp only [Example.validate, decide_eq_false_iff_not, not_lt]
    exact hc
  · intro c
    rfl

/-- Witness for the amended C6 at concrete configs. -/
theorem validate_checks_amended_witness :
    Example.validate ⟨-1, 3, Source.Close⟩ = false ∧
    PivotReversalStrategy.validate ⟨0, 0⟩ = true :=
  ⟨validate_checks_amended.1 ⟨-1, 3, Source.Close⟩ (by norm_num),
   validate_checks_amended.2 ⟨0, 0⟩⟩

/-- C9: for every instance state and every candle, one step of
`ExampleInstance` yields exactly `size()` raw values and signals of its
config (1 and 2), and one step of `PivotReversalStrategyInstance` likewise
(1 and 1). -/
theorem step_result_matches_size :
    (∀ (s : ExampleInstance) (candle : Candle),
      ((s.next candle).1.values.length, (s.next candle).1.signals.length) = s.cfg.size) ∧
    (∀ (s : PivotReversalStrategyInstance) (candle : Candle),
      ((s.next candle).1.values.length, (s.next candle).1.signals.length) = s.cfg.size) :=
  ⟨fun _ _ => rfl, fun _ _ => rfl⟩

/-- C10: for every internal state and every candle, the second signal
returned by `ExampleInstance::next` is the constant `Action::from(0.5)`,
independent of the candle, the config and the accumulated state. -/
theorem example_second_signal_constant :
    ∀ (s : ExampleInstance) (candle : Candle),
      (s.next candle).1.signals[1]? = Option.some (Action.fromValue (1 / 2)) :=
  fun _ _ => rfl

end Yata
